import Mathlib

/-!
Verification of the error-propagation notebook (S01_error_prop_01) and the
damped-oscillator data generator of the PAP repository.

Sympy expressions are embedded as a small abstract syntax tree over rational
constants, the constant pi, and numbered symbols; sympy.diff is embedded as
structural symbolic differentiation with the usual rules, and expressions are
given meaning by an evaluation into the reals.  Sympy's simplify returns an
expression mathematically equal to its argument, so at the level of values it
is the identity; we model it as such.  The numpy oscillator functions are
embedded directly as real functions, arrays as lists.
-/

/-- Embedded sympy expression: rational constants, pi, symbols numbered by
naturals, plus the arithmetic operations the notebook uses. -/
inductive SymExpr : Type
  | const : ℚ → SymExpr
  | pi : SymExpr
  | var : ℕ → SymExpr
  | add : SymExpr → SymExpr → SymExpr
  | neg : SymExpr → SymExpr
  | mul : SymExpr → SymExpr → SymExpr
  | div : SymExpr → SymExpr → SymExpr
  | pow : SymExpr → ℕ → SymExpr
  | sqrt : SymExpr → SymExpr
  deriving Repr, DecidableEq

/-- Subtraction, as sympy writes a - b. -/
def SymExpr.sub (a b : SymExpr) : SymExpr := .add a (.neg b)

/-- Value of an expression under an assignment of reals to the symbols. -/
noncomputable def SymExpr.eval (env : ℕ → ℝ) : SymExpr → ℝ
  | .const q => (q : ℝ)
  | .pi => Real.pi
  | .var i => env i
  | .add a b => a.eval env + b.eval env
  | .neg a => -(a.eval env)
  | .mul a b => a.eval env * b.eval env
  | .div a b => a.eval env / b.eval env
  | .pow a n => (a.eval env) ^ n
  | .sqrt a => Real.sqrt (a.eval env)

/-- Real value of an expression, with domain errors made explicit: taking the
square root of a negative number or dividing by zero does not produce a real
number (sympy yields an imaginary result resp. zoo, and any later conversion
to a float fails), which we model as none. -/
noncomputable def SymExpr.evalN (env : ℕ → ℝ) : SymExpr → Option ℝ
  | .const q => some (q : ℝ)
  | .pi => some Real.pi
  | .var i => some (env i)
  | .add a b => do pure ((← a.evalN env) + (← b.evalN env))
  | .neg a => do pure (-(← a.evalN env))
  | .mul a b => do pure ((← a.evalN env) * (← b.evalN env))
  | .div a b => do
      let x ← a.evalN env
      let y ← b.evalN env
      if y = 0 then none else pure (x / y)
  | .pow a n => do pure ((← a.evalN env) ^ n)
  | .sqrt a => do
      let x ← a.evalN env
      if x < 0 then none else pure (Real.sqrt x)

/-- Symbolic partial derivative with respect to symbol j, by the textbook
rules sympy.diff applies; symbols other than j are treated as constants. -/
def SymExpr.diff : SymExpr → ℕ → SymExpr
  | .const _, _ => .const 0
  | .pi, _ => .const 0
  | .var i, j => if i = j then .const 1 else .const 0
  | .add a b, j => .add (a.diff j) (b.diff j)
  | .neg a, j => .neg (a.diff j)
  | .mul a b, j => .add (.mul (a.diff j) b) (.mul a (b.diff j))
  | .div a b, j => .div (.sub (.mul (a.diff j) b) (.mul a (b.diff j))) (.pow b 2)
  | .pow a n, j => .mul (.mul (.const n) (.pow a (n - 1))) (a.diff j)
  | .sqrt a, j => .div (a.diff j) (.mul (.const 2) (.sqrt a))

/-- sympy.simplify returns an expression mathematically equal to its input;
at the level of the evaluation semantics it is therefore the identity, and we
model it as such. -/
def simplify (e : SymExpr) : SymExpr := e

/-- Uncorrelated error propagation, from the notebook: starting from S(0),
add diff(f, x)**2 * sigma**2 for each pair (x, sigma) of the list vars, then
return sqrt(simplify(sum)). -/
def error_prop (f : SymExpr) (vars : List (ℕ × SymExpr)) : SymExpr :=
  .sqrt (simplify (vars.foldl
    (fun s p => s.add (.mul ((f.diff p.1).pow 2) (p.2.pow 2))) (.const 0)))

/-- Entry access V[i][j] into a covariance matrix given as a python 2-d list
(row i, column j); out-of-range access is given the junk value 0. -/
def Vget (V : List (List SymExpr)) (i j : ℕ) : SymExpr :=
  (V.getD i []).getD j (.const 0)

/-- The radicand accumulated by error_prop_corr: for i in range(len(x)), for
j in range(len(x)), add diff(f, x[i]) * diff(f, x[j]) * V[i][j]. -/
def corrSum (f : SymExpr) (x : List ℕ) (V : List (List SymExpr)) : SymExpr :=
  (List.range x.length).foldl
    (fun s i =>
      (List.range x.length).foldl
        (fun t j =>
          t.add (.mul (.mul (f.diff (x.getD i 0)) (f.diff (x.getD j 0)))
            (Vget V i j)))
        s)
    (.const 0)

/-- Correlated error propagation, from the notebook: the double loop over
i, j accumulating diff(f, x[i]) * diff(f, x[j]) * V[i][j], then
sqrt(simplify(sum)). -/
def error_prop_corr (f : SymExpr) (x : List ℕ) (V : List (List SymExpr)) :
    SymExpr :=
  .sqrt (simplify (corrSum f x V))

/-- Folding additions of terms onto an accumulator evaluates to the starting
value plus the sum of the terms. -/
theorem eval_foldl_add {α : Type} (env : ℕ → ℝ) (step : SymExpr → α → SymExpr)
    (c : α → ℝ) (h : ∀ s y, (step s y).eval env = s.eval env + c y) :
    ∀ (l : List α) (a : SymExpr),
      (l.foldl step a).eval env = a.eval env + (l.map c).sum := by
  intro l
  induction l with
  | nil => intro a; simp
  | cons y l ih =>
      intro a
      simp only [List.foldl_cons, List.map_cons, List.sum_cons]
      rw [ih, h]
      ring

/-- A sum of a function over List.range agrees with the Finset.range sum. -/
theorem list_range_map_sum (c : ℕ → ℝ) (n : ℕ) :
    ((List.range n).map c).sum = ∑ i in Finset.range n, c i := by
  induction n with
  | zero => simp
  | succ n ih => rw [List.range_succ, Finset.sum_range_succ]; simp [ih]

/-- Value of the uncorrelated propagator: the square root of the sum, over
the listed (variable, sigma) pairs, of the squared partial derivative times
the squared uncertainty. -/
theorem error_prop_eval (f : SymExpr) (vars : List (ℕ × SymExpr))
    (env : ℕ → ℝ) :
    (error_prop f vars).eval env =
      Real.sqrt ((vars.map
        (fun p => ((f.diff p.1).eval env) ^ 2 * ((p.2).eval env) ^ 2)).sum) := by
  unfold error_prop simplify
  rw [SymExpr.eval]
  congr 1
  rw [eval_foldl_add env _
    (fun p => ((f.diff p.1).eval env) ^ 2 * ((p.2).eval env) ^ 2)
    (fun s y => by simp [SymExpr.eval])]
  simp [SymExpr.eval]

/-- Value of the double loop of error_prop_corr: the full double sum of
diff(f, x[i]) * diff(f, x[j]) * V[i][j]. -/
theorem corrSum_eval (f : SymExpr) (x : List ℕ) (V : List (List SymExpr))
    (env : ℕ → ℝ) :
    (corrSum f x V).eval env =
      ∑ i in Finset.range x.length, ∑ j in Finset.range x.length,
        (f.diff (x.getD i 0)).eval env * (f.diff (x.getD j 0)).eval env *
          (Vget V i j).eval env := by
  unfold corrSum
  rw [eval_foldl_add env _
    (fun i => ((List.range x.length).map
      (fun j => (f.diff (x.getD i 0)).eval env * (f.diff (x.getD j 0)).eval env *
        (Vget V i j).eval env)).sum)
    (fun s i => by
      rw [eval_foldl_add env _
        (fun j => (f.diff (x.getD i 0)).eval env * (f.diff (x.getD j 0)).eval env *
          (Vget V i j).eval env)
        (fun t j => by simp [SymExpr.eval])])]
  simp only [SymExpr.eval, Rat.cast_zero, zero_add]
  simp only [list_range_map_sum]

/-- Value of the correlated propagator: the square root of the double sum. -/
theorem error_prop_corr_eval (f : SymExpr) (x : List ℕ)
    (V : List (List SymExpr)) (env : ℕ → ℝ) :
    (error_prop_corr f x V).eval env =
      Real.sqrt (∑ i in Finset.range x.length, ∑ j in Finset.range x.length,
        (f.diff (x.getD i 0)).eval env * (f.diff (x.getD j 0)).eval env *
          (Vget V i j).eval env) := by
  unfold error_prop_corr simplify
  rw [SymExpr.eval, corrSum_eval]

/-- Sum of a list of expressions, as built up by sympy matrix
multiplication. -/
def sumListE (l : List SymExpr) : SymExpr := l.foldl .add (.const 0)

/-- sympy Matrix multiplication A * B, entry (i, j) being the sum over k of
A[i, k] * B[k, j]; a sympy M x N Matrix of expressions is modelled by its
entry function. -/
def matMulS {m n p : ℕ} (A : Fin m → Fin n → SymExpr)
    (B : Fin n → Fin p → SymExpr) : Fin m → Fin p → SymExpr :=
  fun i j => sumListE ((List.finRange n).map (fun k => .mul (A i k) (B k j)))

/-- sympy Matrix transpose. -/
def transposeS {m n : ℕ} (A : Fin m → Fin n → SymExpr) :
    Fin n → Fin m → SymExpr :=
  fun i j => A j i

/-- sympy f.jacobian(v) for a column vector f of M expressions and a column
vector v of N symbols: the M x N matrix with entry (i, j) equal to
diff(f[i], v[j]). -/
def jacobianS {M N : ℕ} (f : Fin M → SymExpr) (v : Fin N → ℕ) :
    Fin M → Fin N → SymExpr :=
  fun i j => (f i).diff (v j)

/-- Covariance congruence transform, from the notebook: G = f.jacobian(v),
return simplify(G * V * G.transpose()). -/
def congruence_trafo {M N : ℕ} (f : Fin M → SymExpr) (v : Fin N → ℕ)
    (V : Fin N → Fin N → SymExpr) : Fin M → Fin M → SymExpr :=
  fun i j =>
    simplify ((matMulS (matMulS (jacobianS f v) V) (transposeS (jacobianS f v))) i j)

/-- Entrywise value of a matrix of expressions, as a real matrix. -/
noncomputable def evalMatrix {m n : ℕ} (A : Fin m → Fin n → SymExpr)
    (env : ℕ → ℝ) : Matrix (Fin m) (Fin n) ℝ :=
  Matrix.of (fun i j => (A i j).eval env)

theorem sumListE_eval (l : List SymExpr) (env : ℕ → ℝ) :
    (sumListE l).eval env = (l.map (SymExpr.eval env)).sum := by
  unfold sumListE
  rw [eval_foldl_add env _ (SymExpr.eval env) (fun s y => by simp [SymExpr.eval])]
  simp [SymExpr.eval]

/-- Evaluating a symbolic matrix product gives the product of the evaluated
matrices. -/
theorem matMulS_eval {m n p : ℕ} (A : Fin m → Fin n → SymExpr)
    (B : Fin n → Fin p → SymExpr) (env : ℕ → ℝ) :
    evalMatrix (matMulS A B) env = evalMatrix A env * evalMatrix B env := by
  ext i j
  simp only [evalMatrix, Matrix.of_apply, matMulS, sumListE_eval, Matrix.mul_apply]
  rw [Fin.sum_univ_def]
  simp [Function.comp_def, SymExpr.eval]

/-- Evaluating the congruence transform gives G * V * G.transpose() of the
evaluated Jacobian and covariance matrices. -/
theorem congruence_trafo_eval {M N : ℕ} (f : Fin M → SymExpr) (v : Fin N → ℕ)
    (V : Fin N → Fin N → SymExpr) (env : ℕ → ℝ) :
    evalMatrix (congruence_trafo f v V) env =
      evalMatrix (jacobianS f v) env * evalMatrix V env *
        Matrix.transpose (evalMatrix (jacobianS f v) env) := by
  have h : congruence_trafo f v V =
      matMulS (matMulS (jacobianS f v) V) (transposeS (jacobianS f v)) := rfl
  rw [h, matMulS_eval, matMulS_eval]
  rfl

/-- Free damped oscillator position vs time (phi_0 = 0), from the data
generator notebook. -/
noncomputable def Oscillator.x (t x0 omega_0 beta : ℝ) : ℝ :=
  x0 * Real.exp (-beta * t) * Real.cos (Real.sqrt (omega_0 ^ 2 - beta ^ 2) * t)

/-- Driven damped oscillator amplitude vs driving frequency. -/
noncomputable def Oscillator.A (omega omega_0 beta K : ℝ) : ℝ :=
  K / Real.sqrt ((omega ^ 2 - omega_0 ^ 2) ^ 2 + (2 * beta * omega) ^ 2)

/-- One entry of the phase-shift computation: num = -2 beta omega,
den = omega_0**2 - omega**2; np.divide with out filled by +inf where den is
zero followed by np.arctan gives arctan(num/den) when den is nonzero and
arctan(+inf) = pi/2 when den is zero; np.where(phi > 0, phi - pi, phi) is
the branch correction. -/
noncomputable def Oscillator.phase1 (omega omega_0 beta : ℝ) : ℝ :=
  let num := -2 * beta * omega
  let den := omega_0 ^ 2 - omega ^ 2
  let phi := if den = 0 then Real.pi / 2 else Real.arctan (num / den)
  if 0 < phi then phi - Real.pi else phi

/-- Phase shift of the driven oscillator on an array of driving frequencies;
all numpy operations involved act elementwise. -/
noncomputable def Oscillator.phase (omega : List ℝ) (omega_0 beta : ℝ) :
    List ℝ :=
  omega.map (fun w => Oscillator.phase1 w omega_0 beta)

/-- Each phase value lies in the half-open interval (-pi, 0]. -/
theorem phase1_bounds (w w0 b : ℝ) :
    -Real.pi < Oscillator.phase1 w w0 b ∧ Oscillator.phase1 w w0 b ≤ 0 := by
  unfold Oscillator.phase1
  by_cases hden : w0 ^ 2 - w ^ 2 = 0
  · simp only [hden, if_pos, if_true, reduceIte]
    rw [if_pos Real.pi_div_two_pos]
    constructor <;> nlinarith [Real.pi_pos]
  · simp only [hden, reduceIte]
    have h1 := Real.arctan_lt_pi_div_two ((-2 * b * w) / (w0 ^ 2 - w ^ 2))
    have h2 := Real.neg_pi_div_two_lt_arctan ((-2 * b * w) / (w0 ^ 2 - w ^ 2))
    by_cases hpos : 0 < Real.arctan ((-2 * b * w) / (w0 ^ 2 - w ^ 2))
    · rw [if_pos hpos]
      constructor <;> nlinarith [Real.pi_pos]
    · rw [if_neg hpos]
      push_neg at hpos
      constructor <;> nlinarith [Real.pi_pos]

/-- C9: for every list of driving frequencies and parameters with beta
positive, every entry of the array returned by phase lies in (-pi, 0]: the
branch correction shifts any positive arctan value down by pi. -/
theorem C9_phase_range (omegas : List ℝ) (omega_0 beta : ℝ) (hb : 0 < beta) :
    ∀ p ∈ Oscillator.phase omegas omega_0 beta, -Real.pi < p ∧ p ≤ 0 := by
  intro p hp
  unfold Oscillator.phase at hp
  obtain ⟨w, _, rfl⟩ := List.mem_map.mp hp
  exact phase1_bounds w omega_0 beta

theorem C9_phase_range_witness :
    0 < (1 : ℝ) ∧
      ∀ p ∈ Oscillator.phase [4] 4 1, -Real.pi < p ∧ p ≤ 0 :=
  ⟨by norm_num, C9_phase_range [4] 4 1 (by norm_num)⟩

/-- C10: at resonance (omega_0**2 - omega**2 = 0) the guarded division takes
the out-value +inf, arctan gives pi/2, and the branch correction returns
exactly -pi/2; no division-by-zero error is raised. -/
theorem C10_phase_resonance (omega omega_0 beta : ℝ)
    (h0 : omega_0 ^ 2 - omega ^ 2 = 0) (hb : 0 < beta) (hw : 0 < omega) :
    Oscillator.phase [omega] omega_0 beta = [-(Real.pi / 2)] := by
  unfold Oscillator.phase Oscillator.phase1
  simp only [List.map_cons, List.map_nil, h0, reduceIte, if_pos Real.pi_div_two_pos]
  congr 1
  ring

theorem C10_phase_resonance_witness :
    (2 : ℝ) ^ 2 - (2 : ℝ) ^ 2 = 0 ∧ (0 : ℝ) < 1 ∧ (0 : ℝ) < 2 ∧
      Oscillator.phase [2] 2 1 = [-(Real.pi / 2)] :=
  ⟨by norm_num, by norm_num, by norm_num,
    C10_phase_resonance 2 2 1 (by norm_num) (by norm_num) (by norm_num)⟩

/-- C1: error_prop applied to an expression f and a list of (variable,
sigma) pairs returns an expression equal (under every assignment of values
to the symbols) to sqrt of the sum over the pairs of the squared partial
derivative of f times the squared sigma; symbols not listed are treated as
constants by the symbolic derivative. -/
theorem C1_error_prop_formula (f : SymExpr) (vars : List (ℕ × SymExpr))
    (env : ℕ → ℝ) :
    (error_prop f vars).eval env =
      Real.sqrt ((vars.map
        (fun p => ((f.diff p.1).eval env) ^ 2 * ((p.2).eval env) ^ 2)).sum) :=
  error_prop_eval f vars env

/-- C2: error_prop_corr applied to f, an ordered variable list x and a
covariance matrix V given as a 2-d list returns an expression equal (under
every assignment) to sqrt of the double sum over all index pairs i, j of
diff(f, x[i]) * diff(f, x[j]) * V[i][j]. -/
theorem C2_error_prop_corr_formula (f : SymExpr) (x : List ℕ)
    (V : List (List SymExpr)) (env : ℕ → ℝ) :
    (error_prop_corr f x V).eval env =
      Real.sqrt (∑ i in Finset.range x.length, ∑ j in Finset.range x.length,
        (f.diff (x.getD i 0)).eval env * (f.diff (x.getD j 0)).eval env *
          (Vget V i j).eval env) :=
  error_prop_corr_eval f x V env

/-- C3: congruence_trafo returns the M x M matrix G * V * G.transpose()
where G is the Jacobian of the M output expressions with respect to the N
input symbols, G[i][j] = diff(f[i], v[j]). -/
theorem C3_congruence_trafo_formula {M N : ℕ} (f : Fin M → SymExpr)
    (v : Fin N → ℕ) (V : Fin N → Fin N → SymExpr) (env : ℕ → ℝ) :
    evalMatrix (congruence_trafo f v V) env =
      evalMatrix (jacobianS f v) env * evalMatrix V env *
        Matrix.transpose (evalMatrix (jacobianS f v) env) :=
  congruence_trafo_eval f v V env

/-- C6: the matrix returned by congruence_trafo is symmetric whenever the
input covariance matrix is symmetric, since transposing G * V * G.transpose()
gives G * V.transpose() * G.transpose(). -/
theorem C6_congruence_trafo_symmetric {M N : ℕ} (f : Fin M → SymExpr)
    (v : Fin N → ℕ) (V : Fin N → Fin N → SymExpr) (env : ℕ → ℝ)
    (hV : Matrix.transpose (evalMatrix V env) = evalMatrix V env) :
    Matrix.transpose (evalMatrix (congruence_trafo f v V) env) =
      evalMatrix (congruence_trafo f v V) env := by
  rw [congruence_trafo_eval, Matrix.transpose_mul, Matrix.transpose_mul,
    Matrix.transpose_transpose, hV, Matrix.mul_assoc]

theorem C6_congruence_trafo_symmetric_witness :
    Matrix.transpose (evalMatrix (fun _ _ : Fin 1 => SymExpr.const 1)
        (fun _ => 0)) =
      evalMatrix (fun _ _ : Fin 1 => SymExpr.const 1) (fun _ => 0) ∧
    Matrix.transpose (evalMatrix (congruence_trafo (fun _ : Fin 1 => SymExpr.var 0)
        (fun _ : Fin 1 => 0) (fun _ _ : Fin 1 => SymExpr.const 1)) (fun _ => 0)) =
      evalMatrix (congruence_trafo (fun _ : Fin 1 => SymExpr.var 0)
        (fun _ : Fin 1 => 0) (fun _ _ : Fin 1 => SymExpr.const 1)) (fun _ => 0) :=
  ⟨by ext i j; rfl,
    C6_congruence_trafo_symmetric (fun _ : Fin 1 => SymExpr.var 0)
      (fun _ : Fin 1 => 0) (fun _ _ : Fin 1 => SymExpr.const 1) (fun _ => 0)
      (by ext i j; rfl)⟩

/-- A diagonal covariance matrix, as a python 2-d list: entry (i, i) is
sigma_i**2 and all off-diagonal entries are zero. -/
def diagMat (sigmas : List SymExpr) : List (List SymExpr) :=
  (List.range sigmas.length).map (fun i =>
    (List.range sigmas.length).map (fun j =>
      if i = j then (sigmas.getD i (.const 0)).pow 2 else .const 0))

theorem Vget_diagMat (sigmas : List SymExpr) (i j : ℕ)
    (hi : i < sigmas.length) (hj : j < sigmas.length) :
    Vget (diagMat sigmas) i j =
      if i = j then (sigmas.getD i (.const 0)).pow 2 else .const 0 := by
  have hrow : (diagMat sigmas).getD i [] = (List.range sigmas.length).map
      (fun j => if i = j then (sigmas.getD i (.const 0)).pow 2 else .const 0) := by
    unfold diagMat
    rw [List.getD_eq_getElem _ _ (by simpa using hi)]
    simp
  rw [Vget, hrow, List.getD_eq_getElem _ _ (by simpa using hj)]
  simp

/-- Summing a mapped list is summing the function of the i-th element over
the index range. -/
theorem list_map_sum_getD {α : Type} (g : α → ℝ) (d : α) :
    ∀ l : List α, (l.map g).sum = ∑ i in Finset.range l.length, g (l.getD i d) := by
  intro l
  induction l with
  | nil => simp
  | cons a l ih =>
      simp only [List.map_cons, List.sum_cons, List.length_cons]
      rw [Finset.sum_range_succ']
      simp only [List.getD_cons_succ, List.getD_cons_zero]
      rw [← ih]
      ring

/-- C4: on a diagonal covariance matrix whose diagonal entries are the
squared sigmas, the correlated propagator produces the same value as the
uncorrelated propagator on the corresponding (variable, sigma) pairs. -/
theorem C4_diagonal_reduces_to_uncorrelated (f : SymExpr) (xs : List ℕ)
    (sigmas : List SymExpr) (env : ℕ → ℝ) (hlen : sigmas.length = xs.length) :
    (error_prop_corr f xs (diagMat sigmas)).eval env =
      (error_prop f (xs.zip sigmas)).eval env := by
  rw [error_prop_corr_eval, error_prop_eval]
  congr 1
  rw [list_map_sum_getD _ (0, SymExpr.const 0)]
  have hzl : (xs.zip sigmas).length = xs.length := by
    rw [List.length_zip, hlen, min_self]
  rw [hzl]
  apply Finset.sum_congr rfl
  intro i hi
  have hi' : i < xs.length := Finset.mem_range.mp hi
  have his : i < sigmas.length := by rw [hlen]; exact hi'
  have hv : ∀ j ∈ Finset.range xs.length,
      (f.diff (xs.getD i 0)).eval env * (f.diff (xs.getD j 0)).eval env *
        (Vget (diagMat sigmas) i j).eval env =
      if i = j then
        (f.diff (xs.getD i 0)).eval env * (f.diff (xs.getD j 0)).eval env *
          ((sigmas.getD i (SymExpr.const 0)).eval env) ^ 2
      else 0 := by
    intro j hj
    have hjs : j < sigmas.length := by rw [hlen]; exact Finset.mem_range.mp hj
    rw [Vget_diagMat sigmas i j his hjs]
    by_cases h : i = j
    · simp [h, SymExpr.eval]
    · simp [h, SymExpr.eval]
  rw [Finset.sum_congr rfl hv, Finset.sum_ite_eq (Finset.range xs.length) i _,
    if_pos hi]
  have hget : (xs.zip sigmas).getD i (0, SymExpr.const 0) =
      (xs.getD i 0, sigmas.getD i (SymExpr.const 0)) := by
    rw [List.getD_eq_getElem _ _ (by rw [hzl]; exact hi'), List.getElem_zip,
      List.getD_eq_getElem _ _ hi', List.getD_eq_getElem _ _ his]
  rw [hget]
  ring

theorem C4_diagonal_reduces_to_uncorrelated_witness :
    ([SymExpr.var 1] : List SymExpr).length = ([0] : List ℕ).length ∧
      (error_prop_corr (SymExpr.var 0) [0] (diagMat [SymExpr.var 1])).eval
          (fun _ => 0) =
        (error_prop (SymExpr.var 0) (([0] : List ℕ).zip [SymExpr.var 1])).eval
          (fun _ => 0) :=
  ⟨rfl, C4_diagonal_reduces_to_uncorrelated (SymExpr.var 0) [0] [SymExpr.var 1]
    (fun _ => 0) rfl⟩

/-- For indices below N, the list built from a Fin-indexed vector gives back
the vector entries. -/
theorem finRange_map_getD {N : ℕ} {α : Type} (g : Fin N → α) (d : α)
    (i : Fin N) : (((List.finRange N).map g).getD i d) = g i := by
  rw [List.getD_eq_getElem _ _ (by simp)]
  simp

/-- C5: with a single output expression (M = 1), the (0,0) entry of the
congruence transform equals the square of the correlated propagator applied
to the same variables and the same covariance entries, whenever the radicand
is nonnegative at the evaluation point (as it is for a genuine covariance
matrix). -/
theorem C5_single_output_agrees {N : ℕ} (f : SymExpr) (v : Fin N → ℕ)
    (V : Fin N → Fin N → SymExpr) (env : ℕ → ℝ)
    (hpos : 0 ≤ (corrSum f ((List.finRange N).map v)
      ((List.finRange N).map
        (fun i => (List.finRange N).map (fun j => V i j)))).eval env) :
    (congruence_trafo (fun _ : Fin 1 => f) v V 0 0).eval env =
      ((error_prop_corr f ((List.finRange N).map v)
        ((List.finRange N).map
          (fun i => (List.finRange N).map (fun j => V i j)))).eval env) ^ 2 := by
  set xl : List ℕ := (List.finRange N).map v with hxl
  set Vl : List (List SymExpr) :=
    (List.finRange N).map (fun i => (List.finRange N).map (fun j => V i j))
    with hVl
  have hxlen : xl.length = N := by simp [hxl]
  have hx : ∀ i : Fin N, xl.getD i 0 = v i := fun i => finRange_map_getD v 0 i
  have hVg : ∀ i j : Fin N, (Vget Vl i j) = V i j := by
    intro i j
    unfold Vget
    rw [hVl, finRange_map_getD _ [] i, finRange_map_getD _ (SymExpr.const 0) j]
  have hrhs : ((error_prop_corr f xl Vl).eval env) ^ 2 =
      (corrSum f xl Vl).eval env := by
    unfold error_prop_corr simplify
    rw [SymExpr.eval]
    exact Real.sq_sqrt hpos
  rw [hrhs, corrSum_eval, hxlen]
  simp only [Finset.sum_range, hx, hVg]
  simp only [congruence_trafo, simplify, matMulS, transposeS, jacobianS]
  simp only [sumListE_eval, List.map_map, Function.comp_def, SymExpr.eval]
  simp only [← Fin.sum_univ_def]
  simp only [Finset.sum_mul]
  rw [Finset.sum_comm]
  apply Finset.sum_congr rfl
  intro k _
  apply Finset.sum_congr rfl
  intro l _
  ring

theorem C5_single_output_agrees_witness :
    0 ≤ (corrSum (SymExpr.var 0) ((List.finRange 1).map (fun _ => 0))
        ((List.finRange 1).map
          (fun i => (List.finRange 1).map
            (fun j => (fun _ _ : Fin 1 => SymExpr.const 1) i j)))).eval
        (fun _ => 0) ∧
      (congruence_trafo (fun _ : Fin 1 => SymExpr.var 0) (fun _ : Fin 1 => 0)
          (fun _ _ : Fin 1 => SymExpr.const 1) 0 0).eval (fun _ => 0) =
        ((error_prop_corr (SymExpr.var 0) ((List.finRange 1).map (fun _ => 0))
          ((List.finRange 1).map
            (fun i => (List.finRange 1).map
              (fun j => (fun _ _ : Fin 1 => SymExpr.const 1) i j)))).eval
          (fun _ => 0)) ^ 2 := by
  have hc : corrSum (SymExpr.var 0) ((List.finRange 1).map (fun _ => 0))
      ((List.finRange 1).map
        (fun i => (List.finRange 1).map
          (fun j => (fun _ _ : Fin 1 => SymExpr.const 1) i j))) =
      SymExpr.add (SymExpr.const 0)
        (SymExpr.mul (SymExpr.mul (SymExpr.const 1) (SymExpr.const 1))
          (SymExpr.const 1)) := by decide
  have hp : 0 ≤ (corrSum (SymExpr.var 0) ((List.finRange 1).map (fun _ => 0))
      ((List.finRange 1).map
        (fun i => (List.finRange 1).map
          (fun j => (fun _ _ : Fin 1 => SymExpr.const 1) i j)))).eval
      (fun _ => 0) := by
    rw [hc]
    simp [SymExpr.eval]
  exact ⟨hp, C5_single_output_agrees (SymExpr.var 0) (fun _ : Fin 1 => 0)
    (fun _ _ : Fin 1 => SymExpr.const 1) (fun _ => 0) hp⟩

/-- C7: if the inputs make the radicand accumulated by error_prop_corr
negative at the evaluation point (a covariance matrix violating positive
semidefiniteness), the returned expression has no real value there: the
square root of the negative radicand surfaces a domain error (sympy returns
an imaginary result, and converting it to a real number fails) instead of a
silently truncated real uncertainty. -/
theorem C7_negative_radicand_fails (f : SymExpr) (x : List ℕ)
    (V : List (List SymExpr)) (env : ℕ → ℝ) (r : ℝ)
    (h : (corrSum f x V).evalN env = some r) (hr : r < 0) :
    (error_prop_corr f x V).evalN env = none := by
  unfold error_prop_corr simplify
  rw [SymExpr.evalN, h]
  simp [hr]

theorem C7_negative_radicand_fails_witness :
    ((corrSum (SymExpr.var 0) [0] [[SymExpr.const (-1)]]).evalN (fun _ => 0) =
        some (-1) ∧ (-1 : ℝ) < 0) ∧
      (error_prop_corr (SymExpr.var 0) [0] [[SymExpr.const (-1)]]).evalN
        (fun _ => 0) = none := by
  have h1 : (corrSum (SymExpr.var 0) [0] [[SymExpr.const (-1)]]).evalN
      (fun _ => 0) = some (-1) := by
    have hc : corrSum (SymExpr.var 0) [0] [[SymExpr.const (-1)]] =
        SymExpr.add (SymExpr.const 0)
          (SymExpr.mul (SymExpr.mul (SymExpr.const 1) (SymExpr.const 1))
            (SymExpr.const (-1))) := by decide
    rw [hc]
    simp [SymExpr.evalN]
  exact ⟨⟨h1, by norm_num⟩,
    C7_negative_radicand_fails (SymExpr.var 0) [0] [[SymExpr.const (-1)]]
      (fun _ => 0) (-1) h1 (by norm_num)⟩

/-- The cylinder volume V = pi * r**2 * h of the notebook, with the symbol
numbering h = 0, r = 1, sigma_h = 2, sigma_r = 3, rho = 4. -/
def cylinderV : SymExpr :=
  SymExpr.mul (SymExpr.mul SymExpr.pi ((SymExpr.var 1).pow 2)) (SymExpr.var 0)

/-- sig_V = error_prop(V, [(h, sig_h), (r, sig_r)]) of the notebook. -/
def sig_V : SymExpr :=
  error_prop cylinderV [(0, SymExpr.var 2), (1, SymExpr.var 3)]

/-- The correlated covariance matrix C of the notebook:
[[sig_h**2, rho*sig_h*sig_r], [rho*sig_h*sig_r, sig_r**2]]. -/
def covC : List (List SymExpr) :=
  [[(SymExpr.var 2).pow 2,
    SymExpr.mul (SymExpr.mul (SymExpr.var 4) (SymExpr.var 2)) (SymExpr.var 3)],
   [SymExpr.mul (SymExpr.mul (SymExpr.var 4) (SymExpr.var 2)) (SymExpr.var 3),
    (SymExpr.var 3).pow 2]]

/-- sig_V_2 = error_prop_corr(V, [h, r], C) of the notebook. -/
def sig_V_2 : SymExpr := error_prop_corr cylinderV [0, 1] covC

/-- The substitution h = 3, r = 2, sigma_h = sigma_r = 0.05, rho = 1 from
the notebook. -/
noncomputable def envCyl : ℕ → ℝ := fun i =>
  if i = 0 then 3 else if i = 1 then 2 else
    if i = 2 then 0.05 else if i = 3 then 0.05 else if i = 4 then 1 else 0

theorem cylinderV_value : cylinderV.eval envCyl = 12 * Real.pi := by
  simp [cylinderV, SymExpr.eval, envCyl]
  ring

theorem sig_V_value : sig_V.eval envCyl = Real.sqrt (2 / 5 * Real.pi ^ 2) := by
  unfold sig_V
  rw [error_prop_eval]
  congr 1
  norm_num [cylinderV, SymExpr.diff, SymExpr.eval, envCyl]
  ring

theorem sig_V_2_value : sig_V_2.eval envCyl = 4 / 5 * Real.pi := by
  unfold sig_V_2
  rw [error_prop_corr_eval]
  have h : ∑ i in Finset.range ([0, 1] : List ℕ).length,
      ∑ j in Finset.range ([0, 1] : List ℕ).length,
        (cylinderV.diff (([0, 1] : List ℕ).getD i 0)).eval envCyl *
          (cylinderV.diff (([0, 1] : List ℕ).getD j 0)).eval envCyl *
          (Vget covC i j).eval envCyl = (4 / 5 * Real.pi) ^ 2 := by
    norm_num [Finset.sum_range_succ, cylinderV, covC, Vget, SymExpr.diff,
      SymExpr.eval, envCyl]
    ring
  rw [h, Real.sqrt_sq (by positivity)]

/-- C8: for the cylinder volume at r = 2, h = 3 with sigma_r = sigma_h =
0.05, the volume evaluates to about 37.699, the uncorrelated uncertainty to
about 1.987, the fully correlated (rho = 1) uncertainty to about 2.513, and
the correlated uncertainty is strictly greater than the uncorrelated one. -/
theorem C8_cylinder_numbers :
    (37.698 < cylinderV.eval envCyl ∧ cylinderV.eval envCyl < 37.700) ∧
    (1.986 < sig_V.eval envCyl ∧ sig_V.eval envCyl < 1.988) ∧
    (2.512 < sig_V_2.eval envCyl ∧ sig_V_2.eval envCyl < 2.514) ∧
    sig_V.eval envCyl < sig_V_2.eval envCyl := by
  rw [cylinderV_value, sig_V_value, sig_V_2_value]
  have h1 := Real.pi_gt_d6
  have h2 := Real.pi_lt_d6
  refine ⟨⟨by nlinarith, by nlinarith⟩, ⟨?_, ?_⟩, ⟨by nlinarith, by nlinarith⟩, ?_⟩
  · rw [Real.lt_sqrt (by norm_num)]
    nlinarith
  · rw [Real.sqrt_lt' (by norm_num)]
    nlinarith
  · rw [Real.sqrt_lt' (by positivity)]
    nlinarith
